import Mathlib

/-!
Verification of the inference-runtime core of the repository: the
KV-cache sequence manager, the backend scheduler's abort protocol, the
session-state serialization, and the sampling pipeline.

The repository vendors only the C declaration surface of the runtime
(`src/core/inference/llama/llama.h`, `src/core/inference/ggml/ggml.h`);
the bodies of the runtime operations are not part of the source tree.
Where a definition embeds behavior whose implementation is absent, its
doc comment starts with `Modelled from the spec:` and the definition
follows the specification's own wording for that operation.  The C
declaration surface itself (names and return types) is transcribed
directly from the headers.
-/

/-! ## KV-cache data model -/

/-- Modelled from the spec: one cache cell, stored key/value state for one
sequence at one position (the payload is abstracted to a single integer
value standing for the per-layer key/value vectors). -/
structure llama_kv_cell where
  seq : Int
  pos : Int
  val : Int
deriving DecidableEq

/-- A session's KV cache: the collection of occupied cells. -/
abbrev llama_kv_cache := List llama_kv_cell

/-- The position range `[p0, p1)` of sequence `seq`, where a negative `p1`
is the open-ended "to end of sequence" marker. -/
def in_seq_range (seq p0 p1 : Int) (c : llama_kv_cell) : Bool :=
  c.seq = seq && p0 ≤ c.pos && (p1 < 0 || c.pos < p1)

/-- Modelled from the spec: `remove(seq, from, to)` (C symbol
`llama_kv_cache_seq_rm`, whose body is absent from the tree) invalidates
the cache cells of `seq` in `[p0, p1)`, a negative `p1` meaning "to end";
a sequence id with no cells is a silent no-op; the boolean reports
whether the sequence's cache could be kept contiguous afterward, which
this gap-supporting model always can. -/
def llama_kv_cache_seq_rm (cache : llama_kv_cache) (seq p0 p1 : Int) :
    Bool × llama_kv_cache :=
  (true, cache.filter (fun c => !(in_seq_range seq p0 p1 c)))

/-- Modelled from the spec: legacy-named twin of `llama_kv_cache_seq_rm`
(C symbol `llama_kv_self_seq_rm`), declared separately in the header and
implemented once under a single behavior. -/
def llama_kv_self_seq_rm (cache : llama_kv_cache) (seq p0 p1 : Int) :
    Bool × llama_kv_cache :=
  (true, cache.filter (fun c => !(in_seq_range seq p0 p1 c)))

/-- Modelled from the spec: `copy(src, dst, from, to)` (C symbol
`llama_kv_cache_seq_cp`, body absent from the tree) duplicates the valid
cache contents for positions `[p0, p1)` from `src` into `dst`; `dst`'s
prior cells overlapping the range are overwritten and `src` is left
untouched. -/
def llama_kv_cache_seq_cp (cache : llama_kv_cache) (src dst p0 p1 : Int) :
    llama_kv_cache :=
  cache.filter (fun c => !(in_seq_range dst p0 p1 c))
    ++ (cache.filter (fun c => in_seq_range src p0 p1 c)).map
        (fun c => ⟨dst, c.pos, c.val⟩)

/-- Modelled from the spec: legacy-named twin of `llama_kv_cache_seq_cp`
(C symbol `llama_kv_self_seq_cp`). -/
def llama_kv_self_seq_cp (cache : llama_kv_cache) (src dst p0 p1 : Int) :
    llama_kv_cache :=
  cache.filter (fun c => !(in_seq_range dst p0 p1 c))
    ++ (cache.filter (fun c => in_seq_range src p0 p1 c)).map
        (fun c => ⟨dst, c.pos, c.val⟩)

/-- The positions currently occupied by sequence `seq`. -/
def seq_positions (cache : llama_kv_cache) (seq : Int) : List Int :=
  (cache.filter (fun c => c.seq = seq)).map (fun c => c.pos)

/-- Modelled from the spec: `max_position(seq)` (C symbol
`llama_kv_cache_seq_pos_max`, body absent from the tree) is the highest
valid position of the sequence, or the empty-sequence sentinel `-1`. -/
def llama_kv_cache_seq_pos_max (cache : llama_kv_cache) (seq : Int) : Int :=
  (seq_positions cache seq).foldl max (-1)

/-- Modelled from the spec: legacy-named twin of
`llama_kv_cache_seq_pos_max` (C symbol `llama_kv_self_seq_pos_max`). -/
def llama_kv_self_seq_pos_max (cache : llama_kv_cache) (seq : Int) : Int :=
  (seq_positions cache seq).foldl max (-1)

/-- One token of a decode batch: token id, absolute position, target
sequence id (`llama_batch` entry restricted to one sequence per token). -/
structure llama_batch_token where
  token : Int
  pos : Int
  seq : Int
deriving DecidableEq

/-- Modelled from the spec: the cache-commit effect of one successful
decode step — each batch token adds the cell for its (sequence,
position) slot. -/
def llama_decode (cache : llama_kv_cache) (batch : List llama_batch_token) :
    llama_kv_cache :=
  cache ++ batch.map (fun b => ⟨b.seq, b.pos, b.token⟩)

/-- A batch writing `n` fresh tokens `t 0, …, t (n-1)` at positions
`0 … n-1` of sequence `seq`. -/
def fresh_batch (seq : Int) (n : Nat) (t : Nat → Int) : List llama_batch_token :=
  (List.range n).map (fun i => ⟨t i, (i : Int), seq⟩)

/-! ## Model handles and the legacy-name pairs -/

/-- An immutable loaded model: embedding dimension, layer count, head
count, vocabulary size (metadata fields of the opaque C handle
`struct llama_model`). -/
structure llama_model where
  n_embd : Int
  n_layer : Int
  n_head : Int
  n_vocab : Int
deriving DecidableEq

/-- Modelled from the spec: `load_model` parses an opaque weight/metadata
bundle (here: a stream of integers whose first four fields are the
metadata) and fails on an invalid format (C symbol
`llama_model_load_from_file`, body absent from the tree). -/
def llama_model_load_from_file (data : List Int) : Option llama_model :=
  match data with
  | e :: l :: h :: v :: _ =>
    if 0 < e ∧ 0 < l ∧ 0 < h ∧ 0 < v then some ⟨e, l, h, v⟩ else none
  | _ => none

/-- Modelled from the spec: legacy-named twin of
`llama_model_load_from_file` (C symbol `llama_load_model_from_file`). -/
def llama_load_model_from_file (data : List Int) : Option llama_model :=
  match data with
  | e :: l :: h :: v :: _ =>
    if 0 < e ∧ 0 < l ∧ 0 < h ∧ 0 < v then some ⟨e, l, h, v⟩ else none
  | _ => none

/-- Modelled from the spec: clearing the whole KV cache (C symbols
`llama_kv_cache_clear` / `llama_kv_self_clear`, one behavior under two
names). -/
def llama_kv_cache_clear (_cache : llama_kv_cache) : llama_kv_cache :=
  []

/-- Modelled from the spec: legacy-named twin of `llama_kv_cache_clear`. -/
def llama_kv_self_clear (_cache : llama_kv_cache) : llama_kv_cache :=
  []

/-- Modelled from the spec: `keep(seq)` removes all sequences except
`seq`'s cache contents (C symbol `llama_kv_cache_seq_keep`). -/
def llama_kv_cache_seq_keep (cache : llama_kv_cache) (seq : Int) :
    llama_kv_cache :=
  cache.filter (fun c => c.seq = seq)

/-- Modelled from the spec: legacy-named twin of
`llama_kv_cache_seq_keep` (C symbol `llama_kv_self_seq_keep`). -/
def llama_kv_self_seq_keep (cache : llama_kv_cache) (seq : Int) :
    llama_kv_cache :=
  cache.filter (fun c => c.seq = seq)

/-- Modelled from the spec: `shift(seq, from, to, delta)` re-tags the
positions of `seq` in `[p0, p1)` by adding `delta` (C symbol
`llama_kv_cache_seq_add`). -/
def llama_kv_cache_seq_add (cache : llama_kv_cache) (seq p0 p1 delta : Int) :
    llama_kv_cache :=
  cache.map (fun c =>
    if in_seq_range seq p0 p1 c then ⟨c.seq, c.pos + delta, c.val⟩ else c)

/-- Modelled from the spec: legacy-named twin of `llama_kv_cache_seq_add`
(C symbol `llama_kv_self_seq_add`). -/
def llama_kv_self_seq_add (cache : llama_kv_cache) (seq p0 p1 delta : Int) :
    llama_kv_cache :=
  cache.map (fun c =>
    if in_seq_range seq p0 p1 c then ⟨c.seq, c.pos + delta, c.val⟩ else c)

/-- Modelled from the spec: `scale_positions(seq, from, to, divisor)`
integer-divides the position tags of `seq` in `[p0, p1)` (C symbol
`llama_kv_cache_seq_div`). -/
def llama_kv_cache_seq_div (cache : llama_kv_cache) (seq p0 p1 d : Int) :
    llama_kv_cache :=
  cache.map (fun c =>
    if in_seq_range seq p0 p1 c then ⟨c.seq, c.pos / d, c.val⟩ else c)

/-- Modelled from the spec: legacy-named twin of `llama_kv_cache_seq_div`
(C symbol `llama_kv_self_seq_div`). -/
def llama_kv_self_seq_div (cache : llama_kv_cache) (seq p0 p1 d : Int) :
    llama_kv_cache :=
  cache.map (fun c =>
    if in_seq_range seq p0 p1 c then ⟨c.seq, c.pos / d, c.val⟩ else c)

/-- Modelled from the spec: `defragment()` compacts physical storage and
must not change logical cache content; on the logical cache it is the
identity (C symbol `llama_kv_cache_defrag`). -/
def llama_kv_cache_defrag (cache : llama_kv_cache) : llama_kv_cache :=
  cache

/-- Modelled from the spec: legacy-named twin of `llama_kv_cache_defrag`
(C symbol `llama_kv_self_defrag`). -/
def llama_kv_self_defrag (cache : llama_kv_cache) : llama_kv_cache :=
  cache

/-- Modelled from the spec: applying pending deferred cache maintenance,
which like `defragment` preserves logical cache content (C symbol
`llama_kv_cache_update`). -/
def llama_kv_cache_update (cache : llama_kv_cache) : llama_kv_cache :=
  cache

/-- Modelled from the spec: legacy-named twin of `llama_kv_cache_update`
(C symbol `llama_kv_self_update`). -/
def llama_kv_self_update (cache : llama_kv_cache) : llama_kv_cache :=
  cache

/-- Modelled from the spec: whether the cache supports position shifting,
which this model always does (C symbol `llama_kv_cache_can_shift`). -/
def llama_kv_cache_can_shift (_cache : llama_kv_cache) : Bool :=
  true

/-- Modelled from the spec: legacy-named twin of
`llama_kv_cache_can_shift` (C symbol `llama_kv_self_can_shift`). -/
def llama_kv_self_can_shift (_cache : llama_kv_cache) : Bool :=
  true

/-- Modelled from the spec: number of cached tokens (C symbol
`llama_get_kv_cache_token_count`). -/
def llama_get_kv_cache_token_count (cache : llama_kv_cache) : Int :=
  cache.length

/-- Modelled from the spec: current-named twin of
`llama_get_kv_cache_token_count` (C symbol `llama_kv_self_n_tokens`). -/
def llama_kv_self_n_tokens (cache : llama_kv_cache) : Int :=
  cache.length

/-- Modelled from the spec: number of occupied cache cells, which in this
cell-list model is the cell count (C symbol
`llama_get_kv_cache_used_cells`). -/
def llama_get_kv_cache_used_cells (cache : llama_kv_cache) : Int :=
  cache.length

/-- Modelled from the spec: current-named twin of
`llama_get_kv_cache_used_cells` (C symbol `llama_kv_self_used_cells`). -/
def llama_kv_self_used_cells (cache : llama_kv_cache) : Int :=
  cache.length

/-- Modelled from the spec: releasing a model handle empties the slot
holding it (C symbol `llama_model_free`). -/
def llama_model_free (_slot : Option llama_model) : Option llama_model :=
  none

/-- Modelled from the spec: legacy-named twin of `llama_model_free`
(C symbol `llama_free_model`). -/
def llama_free_model (_slot : Option llama_model) : Option llama_model :=
  none

/-! ## The C declaration surface of the per-sequence cache operations -/

/-- C return type of a header declaration. -/
inductive c_ret_type
  | c_void
  | c_bool
deriving DecidableEq

/-- One declaration of the C API surface: symbol name and return type. -/
structure c_api_decl where
  name : String
  ret : c_ret_type
deriving DecidableEq

/-- The per-sequence KV-cache mutation surface of
`src/core/inference/llama/llama.h` (lines 384-403): each declaration's
name and C return type, transcribed from the header. -/
def kv_cache_mutation_api : List c_api_decl :=
  [⟨"llama_kv_cache_seq_rm", c_ret_type.c_bool⟩,
   ⟨"llama_kv_self_seq_rm", c_ret_type.c_bool⟩,
   ⟨"llama_kv_cache_seq_cp", c_ret_type.c_void⟩,
   ⟨"llama_kv_self_seq_cp", c_ret_type.c_void⟩,
   ⟨"llama_kv_cache_seq_keep", c_ret_type.c_void⟩,
   ⟨"llama_kv_self_seq_keep", c_ret_type.c_void⟩,
   ⟨"llama_kv_cache_seq_add", c_ret_type.c_void⟩,
   ⟨"llama_kv_self_seq_add", c_ret_type.c_void⟩,
   ⟨"llama_kv_cache_seq_div", c_ret_type.c_void⟩,
   ⟨"llama_kv_self_seq_div", c_ret_type.c_void⟩,
   ⟨"llama_kv_cache_defrag", c_ret_type.c_void⟩,
   ⟨"llama_kv_self_defrag", c_ret_type.c_void⟩]

/-! ## Helper lemmas about the cache model -/

/-- Unfolding of the range test into its propositional form. -/
lemma in_seq_range_iff {seq p0 p1 : Int} {c : llama_kv_cell} :
    in_seq_range seq p0 p1 c = true ↔
      c.seq = seq ∧ p0 ≤ c.pos ∧ (p1 < 0 ∨ c.pos < p1) := by
  simp [in_seq_range, and_assoc]

/-- `seq_positions` distributes over cache concatenation. -/
lemma seq_positions_append (l1 l2 : llama_kv_cache) (s : Int) :
    seq_positions (l1 ++ l2) s = seq_positions l1 s ++ seq_positions l2 s := by
  simp [seq_positions, List.filter_append]

/-- An empty `seq_positions` means no cell of the cache carries that
sequence id. -/
lemma seq_positions_nil_forall {cache : llama_kv_cache} {s : Int}
    (h : seq_positions cache s = []) : ∀ c ∈ cache, c.seq ≠ s := by
  intro c hc
  have hf : cache.filter (fun c => decide (c.seq = s)) = [] :=
    List.map_eq_nil_iff.mp h
  have := List.filter_eq_nil_iff.mp hf c hc
  simpa using this

/-- The cells committed for a batch that targets only sequence `s` occupy
exactly the batch's positions, in batch order. -/
lemma seq_positions_all_mine (l : List llama_batch_token) (s : Int)
    (h : ∀ b ∈ l, b.seq = s) :
    seq_positions (l.map (fun b => (⟨b.seq, b.pos, b.token⟩ : llama_kv_cell))) s
      = l.map (fun b => b.pos) := by
  induction l with
  | nil => rfl
  | cons b rest ih =>
    have hb : b.seq = s := h b (List.mem_cons_self b rest)
    have ih2 := ih (fun x hx => h x (List.mem_cons_of_mem b hx))
    simp only [seq_positions, List.map_cons, List.filter_cons] at ih2 ⊢
    simp [hb, ih2]

/-- Folding `max` from the sentinel over the positions `0 … n-1` yields
`n - 1`. -/
lemma foldl_max_range (n : Nat) (hn : 0 < n) :
    ((List.range n).map (fun (i : Nat) => (i : Int))).foldl max (-1) = (n : Int) - 1 := by
  induction n with
  | zero => exact absurd hn (by omega)
  | succ m ih =>
    rcases Nat.eq_zero_or_pos m with h0 | hpos
    · subst h0
      decide
    · rw [List.range_succ, List.map_append, List.foldl_append, ih hpos]
      simp only [List.map_cons, List.map_nil, List.foldl_cons, List.foldl_nil]
      have hsup : ((m : Int) - 1) ⊔ (m : Int) = (m : Int) := by
        apply sup_eq_right.mpr
        omega
      rw [hsup]
      omega

/-- C1: decoding `n` fresh tokens at positions `0 … n-1` into a sequence
that was empty yields `max_position = n - 1`; a subsequent
`remove(seq, 0, n)` brings `max_position` back to the empty-sequence
sentinel `-1`. -/
theorem C1_decode_fresh_then_rm_pos_max (cache : llama_kv_cache) (s : Int)
    (n : Nat) (t : Nat → Int)
    (hempty : seq_positions cache s = []) (hn : 0 < n) :
    llama_kv_cache_seq_pos_max (llama_decode cache (fresh_batch s n t)) s
      = (n : Int) - 1
    ∧ llama_kv_cache_seq_pos_max
        (llama_kv_cache_seq_rm (llama_decode cache (fresh_batch s n t))
          s 0 (n : Int)).2 s = -1 := by
  have hbatch : seq_positions
      ((fresh_batch s n t).map (fun b => (⟨b.seq, b.pos, b.token⟩ : llama_kv_cell))) s
      = (List.range n).map (fun (i : Nat) => (i : Int)) := by
    rw [seq_positions_all_mine]
    · simp [fresh_batch, List.map_map, Function.comp]
    · intro b hb
      obtain ⟨i, _, rfl⟩ := List.mem_map.mp hb
      rfl
  constructor
  · rw [llama_kv_cache_seq_pos_max, llama_decode, seq_positions_append, hempty,
      hbatch, List.nil_append]
    exact foldl_max_range n hn
  · have hall := seq_positions_nil_forall hempty
    rw [llama_kv_cache_seq_pos_max]
    have hnil : seq_positions (llama_kv_cache_seq_rm
        (llama_decode cache (fresh_batch s n t)) s 0 (n : Int)).2 s = [] := by
      rw [llama_kv_cache_seq_rm]
      simp only [seq_positions, llama_decode]
      rw [List.filter_filter, List.filter_append]
      have hc1 : cache.filter
          (fun c => decide (c.seq = s) && !(in_seq_range s 0 (n : Int) c)) = [] := by
        apply List.filter_eq_nil_iff.mpr
        intro c hc
        simp [hall c hc]
      have hc2 : ((fresh_batch s n t).map
            (fun b => (⟨b.seq, b.pos, b.token⟩ : llama_kv_cell))).filter
          (fun c => decide (c.seq = s) && !(in_seq_range s 0 (n : Int) c)) = [] := by
        apply List.filter_eq_nil_iff.mpr
        intro c hc
        obtain ⟨b, hb, rfl⟩ := List.mem_map.mp hc
        obtain ⟨i, hi, rfl⟩ := List.mem_map.mp hb
        have hiN : i < n := List.mem_range.mp hi
        simp [in_seq_range]
        omega
      rw [hc1, hc2]
      simp
    rw [hnil]
    rfl

/-- Closed witness for C1: three fresh tokens into sequence 0 of an empty
cache give `max_position = 2`, then removal gives the sentinel. -/
theorem C1_decode_fresh_then_rm_pos_max_witness :
    llama_kv_cache_seq_pos_max (llama_decode [] (fresh_batch 0 3 (fun i => (i : Int)))) 0
      = (3 : Int) - 1
    ∧ llama_kv_cache_seq_pos_max
        (llama_kv_cache_seq_rm (llama_decode [] (fresh_batch 0 3 (fun i => (i : Int))))
          0 0 (3 : Int)).2 0 = -1 :=
  C1_decode_fresh_then_rm_pos_max [] 0 3 (fun i => (i : Int)) (by decide) (by decide)

/-- C4: `remove(seq, from, to)` returns `true` (the cache could be kept
contiguous), keeps exactly the cells outside the invalidated range —
cells of `seq` whose position lies in `[p0, p1)`, a negative `p1`
meaning "to end" — and is a silent no-op when the sequence id has no
cells. -/
theorem C4_seq_rm_semantics (cache : llama_kv_cache) (s p0 p1 : Int) :
    (llama_kv_cache_seq_rm cache s p0 p1).1 = true
    ∧ (∀ c : llama_kv_cell,
        c ∈ (llama_kv_cache_seq_rm cache s p0 p1).2 ↔
          c ∈ cache ∧ ¬(c.seq = s ∧ p0 ≤ c.pos ∧ (p1 < 0 ∨ c.pos < p1)))
    ∧ (seq_positions cache s = [] →
        (llama_kv_cache_seq_rm cache s p0 p1).2 = cache) := by
  refine ⟨rfl, ?_, ?_⟩
  · intro c
    rw [llama_kv_cache_seq_rm]
    simp only [List.mem_filter, Bool.not_eq_true']
    rw [← in_seq_range_iff]
    simp
  · intro h
    have hall := seq_positions_nil_forall h
    rw [llama_kv_cache_seq_rm]
    apply List.filter_eq_self.mpr
    intro c hc
    simp [in_seq_range, hall c hc]

/-- Closed witness for C4 at a concrete cache. -/
theorem C4_seq_rm_semantics_witness :
    (llama_kv_cache_seq_rm [⟨2, 0, 7⟩] 1 0 5).1 = true
    ∧ (llama_kv_cache_seq_rm [⟨2, 0, 7⟩] 1 0 5).2 = [⟨2, 0, 7⟩] :=
  ⟨(C4_seq_rm_semantics [⟨2, 0, 7⟩] 1 0 5).1,
   (C4_seq_rm_semantics [⟨2, 0, 7⟩] 1 0 5).2.2 (by decide)⟩

/-- C8: `copy(src, dst, from, to)` with `src ≠ dst` leaves every cell not
belonging to `dst` untouched (in particular the whole of `src`),
preserves `src`'s positions and `max_position`, and leaves `dst`'s cells
outside `[p0, p1)` untouched: only `dst`'s cells overlapping the copied
range are overwritten. -/
theorem C8_seq_cp_frame (cache : llama_kv_cache) (src dst p0 p1 : Int)
    (hne : src ≠ dst) :
    (∀ c : llama_kv_cell, c.seq ≠ dst →
        (c ∈ llama_kv_cache_seq_cp cache src dst p0 p1 ↔ c ∈ cache))
    ∧ seq_positions (llama_kv_cache_seq_cp cache src dst p0 p1) src
        = seq_positions cache src
    ∧ llama_kv_cache_seq_pos_max (llama_kv_cache_seq_cp cache src dst p0 p1) src
        = llama_kv_cache_seq_pos_max cache src
    ∧ (∀ c : llama_kv_cell, c.seq = dst →
        ¬(p0 ≤ c.pos ∧ (p1 < 0 ∨ c.pos < p1)) →
        (c ∈ llama_kv_cache_seq_cp cache src dst p0 p1 ↔ c ∈ cache)) := by
  have hpos : seq_positions (llama_kv_cache_seq_cp cache src dst p0 p1) src
      = seq_positions cache src := by
    rw [llama_kv_cache_seq_cp, seq_positions_append]
    have h2 : seq_positions
        ((cache.filter (fun c => in_seq_range src p0 p1 c)).map
          (fun c => (⟨dst, c.pos, c.val⟩ : llama_kv_cell))) src = [] := by
      rw [seq_positions, List.map_eq_nil_iff]
      apply List.filter_eq_nil_iff.mpr
      intro c hc
      obtain ⟨a, _, rfl⟩ := List.mem_map.mp hc
      simp
      exact fun hdst => hne hdst.symm
    rw [h2, List.append_nil]
    rw [seq_positions, seq_positions, List.filter_filter]
    congr 1
    apply List.filter_congr
    intro a _
    by_cases h : a.seq = src
    · have : in_seq_range dst p0 p1 a = false := by
        simp [in_seq_range, h]
        intro hsd
        exact absurd hsd hne
      simp [h, this]
    · simp [h]
  refine ⟨?_, hpos, ?_, ?_⟩
  · intro c hcd
    constructor
    · intro h
      rcases List.mem_append.mp h with h | h
      · exact (List.mem_filter.mp h).1
      · exfalso
        obtain ⟨a, _, rfl⟩ := List.mem_map.mp h
        exact hcd rfl
    · intro h
      apply List.mem_append.mpr
      left
      refine List.mem_filter.mpr ⟨h, ?_⟩
      simp [in_seq_range, hcd]
  · rw [llama_kv_cache_seq_pos_max, llama_kv_cache_seq_pos_max, hpos]
  · intro c hcd hrange
    have hin : in_seq_range dst p0 p1 c = false := by
      rw [← Bool.not_eq_true, in_seq_range_iff]
      tauto
    constructor
    · intro h
      rcases List.mem_append.mp h with h | h
      · exact (List.mem_filter.mp h).1
      · exfalso
        obtain ⟨a, ha, heq⟩ := List.mem_map.mp h
        have hr : in_seq_range src p0 p1 a = true := (List.mem_filter.mp ha).2
        have := (in_seq_range_iff.mp hr).2
        have hpos_eq : a.pos = c.pos := by
          rw [← heq]
        exact hrange (hpos_eq ▸ this)
    · intro h
      apply List.mem_append.mpr
      left
      exact List.mem_filter.mpr ⟨h, by simp [hin]⟩

/-- Closed witness for C8 at a concrete cache. -/
theorem C8_seq_cp_frame_witness :
    seq_positions (llama_kv_cache_seq_cp [⟨0, 0, 9⟩, ⟨1, 4, 8⟩] 0 1 0 1) 0
      = seq_positions [⟨0, 0, 9⟩, ⟨1, 4, 8⟩] 0
    ∧ llama_kv_cache_seq_pos_max (llama_kv_cache_seq_cp [⟨0, 0, 9⟩, ⟨1, 4, 8⟩] 0 1 0 1) 0
      = llama_kv_cache_seq_pos_max [⟨0, 0, 9⟩, ⟨1, 4, 8⟩] 0 :=
  ⟨(C8_seq_cp_frame [⟨0, 0, 9⟩, ⟨1, 4, 8⟩] 0 1 0 1 (by decide)).2.1,
   (C8_seq_cp_frame [⟨0, 0, 9⟩, ⟨1, 4, 8⟩] 0 1 0 1 (by decide)).2.2.1⟩

/-- C9: every legacy/current duplicate name pair of the API surface is
one behavior under two names: for all arguments the two functions of
each pair — cache clear, the per-sequence remove/copy/keep/shift/
scale-positions/pos-max operations, defragment, update, can-shift, the
token-count and used-cells queries, model load and model free — return
the same result and have the same effect on state. -/
theorem C9_legacy_current_pairs_agree :
    (∀ cache : llama_kv_cache,
        llama_kv_self_clear cache = llama_kv_cache_clear cache)
    ∧ (∀ (cache : llama_kv_cache) (s p0 p1 : Int),
        llama_kv_self_seq_rm cache s p0 p1 = llama_kv_cache_seq_rm cache s p0 p1)
    ∧ (∀ (cache : llama_kv_cache) (src dst p0 p1 : Int),
        llama_kv_self_seq_cp cache src dst p0 p1
          = llama_kv_cache_seq_cp cache src dst p0 p1)
    ∧ (∀ (cache : llama_kv_cache) (s : Int),
        llama_kv_self_seq_keep cache s = llama_kv_cache_seq_keep cache s)
    ∧ (∀ (cache : llama_kv_cache) (s p0 p1 delta : Int),
        llama_kv_self_seq_add cache s p0 p1 delta
          = llama_kv_cache_seq_add cache s p0 p1 delta)
    ∧ (∀ (cache : llama_kv_cache) (s p0 p1 d : Int),
        llama_kv_self_seq_div cache s p0 p1 d
          = llama_kv_cache_seq_div cache s p0 p1 d)
    ∧ (∀ (cache : llama_kv_cache) (s : Int),
        llama_kv_self_seq_pos_max cache s = llama_kv_cache_seq_pos_max cache s)
    ∧ (∀ cache : llama_kv_cache,
        llama_kv_self_defrag cache = llama_kv_cache_defrag cache)
    ∧ (∀ cache : llama_kv_cache,
        llama_kv_self_update cache = llama_kv_cache_update cache)
    ∧ (∀ cache : llama_kv_cache,
        llama_kv_self_can_shift cache = llama_kv_cache_can_shift cache)
    ∧ (∀ cache : llama_kv_cache,
        llama_kv_self_n_tokens cache = llama_get_kv_cache_token_count cache)
    ∧ (∀ cache : llama_kv_cache,
        llama_kv_self_used_cells cache = llama_get_kv_cache_used_cells cache)
    ∧ (∀ data : List Int,
        llama_load_model_from_file data = llama_model_load_from_file data)
    ∧ (∀ slot : Option llama_model,
        llama_free_model slot = llama_model_free slot) :=
  ⟨fun _ => rfl, fun _ _ _ _ => rfl, fun _ _ _ _ _ => rfl, fun _ _ => rfl,
   fun _ _ _ _ _ => rfl, fun _ _ _ _ _ => rfl, fun _ _ => rfl, fun _ => rfl,
   fun _ => rfl, fun _ => rfl, fun _ => rfl, fun _ => rfl, fun _ => rfl,
   fun _ => rfl⟩

/-- C10: among the per-sequence KV-cache mutation declarations of the
header, exactly the two names of `remove` return a value, and that value
is a C `bool`; every other operation returns `void`, so no failure is
observable through its return value. -/
theorem C10_only_seq_rm_returns_result :
    (kv_cache_mutation_api.filter
        (fun d => !(d.ret == c_ret_type.c_void))).map (fun d => d.name)
      = ["llama_kv_cache_seq_rm", "llama_kv_self_seq_rm"]
    ∧ (kv_cache_mutation_api.filter
        (fun d => !(d.ret == c_ret_type.c_void))).map (fun d => d.ret)
      = [c_ret_type.c_bool, c_ret_type.c_bool] :=
  ⟨rfl, rfl⟩

/-! ## Sampling pipeline -/

/-- One candidate of a token distribution: token id, raw logit, derived
probability (`struct llama_token_data`, with the float fields embedded
as rationals). -/
structure llama_token_data where
  id : Int
  logit : ℚ
  p : ℚ
deriving DecidableEq

/-- Insert a candidate into a list sorted by descending logit, before any
already-present candidate of equal logit (stability: original order,
hence lowest index, wins ties). -/
def insert_by_logit (c : llama_token_data) :
    List llama_token_data → List llama_token_data
  | [] => [c]
  | b :: rest =>
    if b.logit ≤ c.logit then c :: b :: rest else b :: insert_by_logit c rest

/-- Stable sort of the candidates by descending logit. -/
def sort_by_logit : List llama_token_data → List llama_token_data
  | [] => []
  | c :: rest => insert_by_logit c (sort_by_logit rest)

/-- Insert a candidate into a list sorted by descending probability,
stably. -/
def insert_by_prob (c : llama_token_data) :
    List llama_token_data → List llama_token_data
  | [] => [c]
  | b :: rest =>
    if b.p ≤ c.p then c :: b :: rest else b :: insert_by_prob c rest

/-- Stable sort of the candidates by descending probability. -/
def sort_by_prob : List llama_token_data → List llama_token_data
  | [] => []
  | c :: rest => insert_by_prob c (sort_by_prob rest)

/-- Stable insertion into a list sorted ascending by the key `f`, before
any already-present element of equal key. -/
def insert_asc_by (f : llama_token_data → ℚ) (c : llama_token_data) :
    List llama_token_data → List llama_token_data
  | [] => [c]
  | b :: rest =>
    if f c ≤ f b then c :: b :: rest else b :: insert_asc_by f c rest

/-- Stable sort of the candidates ascending by the key `f`. -/
def sort_asc_by (f : llama_token_data → ℚ) :
    List llama_token_data → List llama_token_data
  | [] => []
  | c :: rest => insert_asc_by f c (sort_asc_by f rest)

/-- Modelled from the spec: the stage kinds of the sampler chain
(spec 4.5).  Quantities that live outside rational arithmetic or outside
the chain are abstracted into stage parameters the theorems quantify
over: the entropy-derived typicality distance of `typical` is its
`score` parameter, the adaptively chosen truncation width of the two
`mirostat` stages (whose running estimate mutates across calls) is their
`k` parameter next to the `tau`/`eta` configuration, and the token mask
a formal grammar induces given the tokens accepted so far is `grammar`'s
`allowed` parameter. -/
inductive llama_sampler_stage
  | top_k (k : Nat)
  | top_p (p : ℚ) (min_keep : Nat)
  | min_p (p : ℚ) (min_keep : Nat)
  | typical (score : llama_token_data → ℚ) (p : ℚ) (min_keep : Nat)
  | temp (t : ℚ)
  | penalties (last_n : Nat) (rep freq pres : ℚ) (history : List Int)
  | mirostat (tau eta : ℚ) (k : Nat)
  | mirostat_v2 (tau eta : ℚ) (k : Nat)
  | grammar (allowed : Int → Bool)
  | logit_bias (entries : List (Int × ℚ))

/-- Modelled from the spec: `top_k(k)` retains only the `k` highest-logit
candidates (`llama_sampler_init_top_k`); `k = 0` is the no-truncation
degenerate case. -/
def apply_top_k (k : Nat) (l : List llama_token_data) : List llama_token_data :=
  if k = 0 then l else (sort_by_logit l).take k

/-- Smallest count of leading candidates whose cumulative probability,
starting from `acc`, reaches `p`; the whole list if it is never
reached. -/
def cum_cutoff (p : ℚ) : List llama_token_data → ℚ → Nat
  | [], _ => 0
  | c :: rest, acc => if p ≤ acc then 0 else 1 + cum_cutoff p rest (acc + c.p)

/-- Modelled from the spec: `top_p(p, min_keep)` retains the smallest
descending-probability head of the candidates whose cumulative
probability reaches `p`, but never fewer than `min_keep` (and never
fewer than one) candidates (`llama_sampler_init_top_p`). -/
def apply_top_p (p : ℚ) (min_keep : Nat) (l : List llama_token_data) :
    List llama_token_data :=
  let s := sort_by_prob l
  s.take (max (max min_keep 1) (cum_cutoff p s 0))

/-- Highest candidate probability of the distribution. -/
def max_prob (l : List llama_token_data) : ℚ :=
  l.foldl (fun a c => max a c.p) 0

/-- Modelled from the spec: `min_p(p, min_keep)` drops candidates whose
probability is below `p` times the maximum probability, respecting
`min_keep` (and keeping at least one candidate)
(`llama_sampler_init_min_p`). -/
def apply_min_p (p : ℚ) (min_keep : Nat) (l : List llama_token_data) :
    List llama_token_data :=
  let kept := l.filter (fun c => p * max_prob l ≤ c.p)
  if kept.length < max min_keep 1 then (sort_by_prob l).take (max min_keep 1)
  else kept

/-- Modelled from the spec: `temperature(t)` rescales the logits by
dividing each by `t` (`llama_sampler_init_temp`). -/
def apply_temp (t : ℚ) (l : List llama_token_data) : List llama_token_data :=
  l.map (fun c => ⟨c.id, c.logit / t, c.p⟩)

/-- Modelled from the spec: `penalties(last_n, rep, freq, pres)`
downweights each candidate seen among the last `last_n` accepted tokens
(most recent first) proportionally to its repeat count and the penalty
coefficients (`llama_sampler_init_penalties`). -/
def apply_penalties (last_n : Nat) (rep freq pres : ℚ) (history : List Int)
    (l : List llama_token_data) : List llama_token_data :=
  l.map (fun c =>
    let cnt : Nat := ((history.take last_n).filter (fun tk => tk = c.id)).length
    if cnt = 0 then c
    else ⟨c.id,
      (if 0 < c.logit then c.logit / rep else c.logit * rep)
        - freq * cnt - pres, c.p⟩)

/-- Modelled from the spec: `logit_bias(entries)` adds a fixed offset to
the logits of the listed token ids (`llama_sampler_init_logit_bias`). -/
def apply_logit_bias (entries : List (Int × ℚ)) (l : List llama_token_data) :
    List llama_token_data :=
  l.map (fun c =>
    match entries.find? (fun e => e.1 = c.id) with
    | some e => ⟨c.id, c.logit + e.2, c.p⟩
    | none => c)

/-- Modelled from the spec: `typical(p, min_keep)` retains the candidates
closest to the distribution's entropy-derived typical probability mass —
their distance is the abstracted `score`, smaller is closer — keeping
the smallest closest-first head of cumulative probability `p` and never
fewer than `min_keep` (nor fewer than one) candidates
(`llama_sampler_init_typical`). -/
def apply_typical (score : llama_token_data → ℚ) (p : ℚ) (min_keep : Nat)
    (l : List llama_token_data) : List llama_token_data :=
  let s := sort_asc_by score l
  s.take (max (max min_keep 1) (cum_cutoff p s 0))

/-- Modelled from the spec: the candidate-set effect of one `mirostat` or
`mirostat_v2` call — an adaptive truncation of the candidates, keeping
the `k` most probable ones (at least one), where `k` abstracts the width
the stage derives from its perplexity target and running estimate
(`llama_sampler_init_mirostat` / `llama_sampler_init_mirostat_v2`). -/
def apply_mirostat (k : Nat) (l : List llama_token_data) :
    List llama_token_data :=
  (sort_by_prob l).take (max k 1)

/-- Modelled from the spec: `grammar(spec, root)` masks out the
candidates that would violate the formal grammar given the tokens
accepted so far; `allowed` is the induced mask on token ids
(`llama_sampler_init_grammar`). -/
def apply_grammar (allowed : Int → Bool) (l : List llama_token_data) :
    List llama_token_data :=
  l.filter (fun c => allowed c.id)

/-- Modelled from the spec: one stage of the chain reads and rewrites the
candidate set (`llama_sampler_apply` dispatched on the stage kind). -/
def llama_sampler_stage_apply : llama_sampler_stage →
    List llama_token_data → List llama_token_data
  | .top_k k, l => apply_top_k k l
  | .top_p p mk, l => apply_top_p p mk l
  | .min_p p mk, l => apply_min_p p mk l
  | .typical score p mk, l => apply_typical score p mk l
  | .temp t, l => apply_temp t l
  | .penalties n rep freq pres hist, l => apply_penalties n rep freq pres hist l
  | .mirostat _ _ k, l => apply_mirostat k l
  | .mirostat_v2 _ _ k, l => apply_mirostat k l
  | .grammar allowed, l => apply_grammar allowed l
  | .logit_bias entries, l => apply_logit_bias entries l

/-- Whether a stage is the grammar-masking stage. -/
def stage_is_grammar : llama_sampler_stage → Bool
  | .grammar _ => true
  | _ => false

/-- Modelled from the spec: `apply(chain, distribution)` runs each stage
in list order over the candidate set (`llama_sampler_chain_add` builds
the list; `llama_sampler_apply` on a chain folds it). -/
def llama_sampler_chain_apply (chain : List llama_sampler_stage)
    (l : List llama_token_data) : List llama_token_data :=
  chain.foldl (fun d s => llama_sampler_stage_apply s d) l

/-- One greedy comparison step: keep the candidate with the higher logit,
the earlier one on ties. -/
def greedy_step (acc : Option llama_token_data) (c : llama_token_data) :
    Option llama_token_data :=
  match acc with
  | none => some c
  | some b => if b.logit < c.logit then some c else some b

/-- Modelled from the spec: `greedy` final selection picks the remaining
candidate with the maximum logit, the first (lowest-index) one on ties
(`llama_sampler_init_greedy`). -/
def llama_sampler_greedy (l : List llama_token_data) :
    Option llama_token_data :=
  l.foldl greedy_step none

/-- The token id selected by running the chain and then greedy
selection. -/
def llama_sampler_chain_select (chain : List llama_sampler_stage)
    (l : List llama_token_data) : Option Int :=
  (llama_sampler_greedy (llama_sampler_chain_apply chain l)).map (fun c => c.id)

/-! ## Greedy selection lemmas -/

/-- A greedy fold started from a present candidate always yields a
candidate. -/
lemma greedy_foldl_some (l : List llama_token_data) :
    ∀ x : llama_token_data, ∃ b, l.foldl greedy_step (some x) = some b := by
  induction l with
  | nil => intro x; exact ⟨x, rfl⟩
  | cons c rest ih =>
    intro x
    simp only [List.foldl_cons]
    by_cases h : x.logit < c.logit
    · simpa [greedy_step, h] using ih c
    · simpa [greedy_step, h] using ih x

/-- The greedy fold result dominates every scanned candidate and the
accumulator. -/
lemma greedy_foldl_le (l : List llama_token_data) :
    ∀ (acc : Option llama_token_data) (b : llama_token_data),
      l.foldl greedy_step acc = some b →
        (∀ a ∈ l, a.logit ≤ b.logit) ∧
        (∀ x, acc = some x → x.logit ≤ b.logit) := by
  induction l with
  | nil =>
    intro acc b h
    refine ⟨by simp, fun x hx => ?_⟩
    rw [hx] at h
    cases h
    exact le_refl _
  | cons c rest ih =>
    intro acc b h
    simp only [List.foldl_cons] at h
    obtain ⟨h1, h2⟩ := ih (greedy_step acc c) b h
    have hc : c.logit ≤ b.logit := by
      cases acc with
      | none => exact h2 c rfl
      | some x =>
        by_cases hx : x.logit < c.logit
        · exact h2 c (by simp [greedy_step, hx])
        · exact le_trans (le_of_not_lt hx) (h2 x (by simp [greedy_step, hx]))
    refine ⟨?_, ?_⟩
    · intro a ha
      rcases List.mem_cons.mp ha with rfl | hm
      · exact hc
      · exact h1 a hm
    · intro x hx
      subst hx
      by_cases hlt : x.logit < c.logit
      · exact le_trans (le_of_lt hlt) (h2 c (by simp [greedy_step, hlt]))
      · exact h2 x (by simp [greedy_step, hlt])

/-- The greedy fold result comes from the list or from the accumulator. -/
lemma greedy_foldl_mem (l : List llama_token_data) :
    ∀ (acc : Option llama_token_data) (b : llama_token_data),
      l.foldl greedy_step acc = some b → b ∈ l ∨ acc = some b := by
  induction l with
  | nil => intro acc b h; exact Or.inr h
  | cons c rest ih =>
    intro acc b h
    simp only [List.foldl_cons] at h
    rcases ih _ _ h with hm | he
    · exact Or.inl (List.mem_cons_of_mem _ hm)
    · cases acc with
      | none =>
        simp only [greedy_step] at he
        cases he
        exact Or.inl (List.mem_cons_self _ _)
      | some x =>
        by_cases hx : x.logit < c.logit
        · simp only [greedy_step, if_pos hx] at he
          cases he
          exact Or.inl (List.mem_cons_self _ _)
        · simp only [greedy_step, if_neg hx] at he
          exact Or.inr he

/-- Greedy selection on a distribution whose highest logit is carried by
a single token id yields that id. -/
lemma greedy_unique_max (d : List llama_token_data) (c : llama_token_data)
    (hc : c ∈ d) (hmax : ∀ b ∈ d, b.id = c.id ∨ b.logit < c.logit) :
    ∃ b, llama_sampler_greedy d = some b ∧ b.id = c.id := by
  obtain ⟨b, hb⟩ : ∃ b, llama_sampler_greedy d = some b := by
    cases d with
    | nil => cases hc
    | cons x rest =>
      simpa [llama_sampler_greedy, greedy_step] using greedy_foldl_some rest x
  have hble := (greedy_foldl_le d none b hb).1
  have hbm : b ∈ d := by
    rcases greedy_foldl_mem d none b hb with h | h
    · exact h
    · cases h
  rcases hmax b hbm with hid | hlt
  · exact ⟨b, hb, hid⟩
  · exact absurd hlt (not_lt.mpr (hble c hc))

/-- C5: for any positive temperature `t`, rescaling by `temperature(t)`
and then selecting greedily is deterministic, selects exactly the token
carrying the single highest logit of the unmodified distribution, and
agrees with untempered greedy selection (temperature preserves the
argmax). -/
theorem C5_temp_then_greedy (d : List llama_token_data) (t : ℚ)
    (c : llama_token_data) (ht : 0 < t) (hc : c ∈ d)
    (hmax : ∀ b ∈ d, b.id = c.id ∨ b.logit < c.logit) :
    (llama_sampler_greedy (llama_sampler_stage_apply (.temp t) d)).map
        (fun x => x.id) = some c.id
    ∧ (llama_sampler_greedy (llama_sampler_stage_apply (.temp t) d)).map
        (fun x => x.id)
      = (llama_sampler_greedy d).map (fun x => x.id) := by
  obtain ⟨b1, hb1, hid1⟩ := greedy_unique_max d c hc hmax
  have h2 : ∃ b, llama_sampler_greedy (apply_temp t d) = some b
      ∧ b.id = (⟨c.id, c.logit / t, c.p⟩ : llama_token_data).id := by
    apply greedy_unique_max (apply_temp t d) ⟨c.id, c.logit / t, c.p⟩
    · exact List.mem_map.mpr ⟨c, hc, rfl⟩
    · intro b hb
      obtain ⟨a, ha, rfl⟩ := List.mem_map.mp hb
      rcases hmax a ha with hid | hlt
      · exact Or.inl hid
      · exact Or.inr ((div_lt_div_iff_of_pos_right ht).mpr hlt)
  obtain ⟨b2, hb2, hid2⟩ := h2
  have hstage : llama_sampler_stage_apply (.temp t) d = apply_temp t d := rfl
  rw [hstage, hb2]
  rw [hb1]
  simp [hid1, hid2]

/-- Closed witness for C5 at a concrete distribution and temperature. -/
theorem C5_temp_then_greedy_witness :
    (llama_sampler_greedy (llama_sampler_stage_apply
        (llama_sampler_stage.temp (1/2))
        [⟨0, 1, 0⟩, ⟨1, 3, 0⟩])).map (fun x => x.id) = some 1
    ∧ (llama_sampler_greedy (llama_sampler_stage_apply
        (llama_sampler_stage.temp (1/2))
        [⟨0, 1, 0⟩, ⟨1, 3, 0⟩])).map (fun x => x.id)
      = (llama_sampler_greedy [⟨0, 1, 0⟩, ⟨1, 3, 0⟩]).map (fun x => x.id) :=
  C5_temp_then_greedy [⟨0, 1, 0⟩, ⟨1, 3, 0⟩] (1/2) ⟨1, 3, 0⟩
    (by norm_num) (by decide) (by decide)

/-! ## The chain after top_k(1) -/

/-- Taking at least one element of a one-element list gives it back. -/
lemma take_singleton (n : Nat) (hn : 1 ≤ n) (c : llama_token_data) :
    ([c]).take n = [c] := by
  cases n with
  | zero => exact absurd hn (by omega)
  | succ m => simp

/-- Every modelled stage other than the grammar mask maps a one-candidate
set to a one-candidate set carrying the same token id. -/
lemma stage_apply_singleton (s : llama_sampler_stage)
    (hs : stage_is_grammar s = false) (c : llama_token_data) :
    ∃ c', llama_sampler_stage_apply s [c] = [c'] ∧ c'.id = c.id := by
  cases s with
  | top_k k =>
    by_cases hk : k = 0
    · exact ⟨c, by simp [llama_sampler_stage_apply, apply_top_k, hk], rfl⟩
    · refine ⟨c, ?_, rfl⟩
      simp only [llama_sampler_stage_apply, apply_top_k, if_neg hk]
      have : sort_by_logit [c] = [c] := rfl
      rw [this, take_singleton k (by omega) c]
  | top_p p mk =>
    refine ⟨c, ?_, rfl⟩
    simp only [llama_sampler_stage_apply, apply_top_p]
    have hs : sort_by_prob [c] = [c] := rfl
    rw [hs]
    exact take_singleton _ (le_trans (le_max_right mk 1) (le_max_left _ _)) c
  | min_p p mk =>
    simp only [llama_sampler_stage_apply, apply_min_p]
    by_cases hp : p * max_prob [c] ≤ c.p
    · have hk : ([c]).filter (fun x => decide (p * max_prob [c] ≤ x.p)) = [c] := by
        simp [hp]
      rw [hk]
      by_cases hlen : ([c] : List llama_token_data).length < max mk 1
      · refine ⟨c, ?_, rfl⟩
        rw [if_pos hlen]
        have hs : sort_by_prob [c] = [c] := rfl
        rw [hs]
        exact take_singleton _ (le_max_right mk 1) c
      · exact ⟨c, by rw [if_neg hlen], rfl⟩
    · have hk : ([c]).filter (fun x => decide (p * max_prob [c] ≤ x.p)) = [] := by
        simp [hp]
      rw [hk]
      have hlen : ([] : List llama_token_data).length < max mk 1 := by
        simp only [List.length_nil]
        omega
      refine ⟨c, ?_, rfl⟩
      rw [if_pos hlen]
      have hs : sort_by_prob [c] = [c] := rfl
      rw [hs]
      exact take_singleton _ (le_max_right mk 1) c
  | typical score p mk =>
    refine ⟨c, ?_, rfl⟩
    simp only [llama_sampler_stage_apply, apply_typical]
    have hsrt : sort_asc_by score [c] = [c] := rfl
    rw [hsrt]
    exact take_singleton _ (le_trans (le_max_right mk 1) (le_max_left _ _)) c
  | mirostat tau eta k =>
    refine ⟨c, ?_, rfl⟩
    simp only [llama_sampler_stage_apply, apply_mirostat]
    have hsrt : sort_by_prob [c] = [c] := rfl
    rw [hsrt]
    exact take_singleton _ (le_max_right k 1) c
  | mirostat_v2 tau eta k =>
    refine ⟨c, ?_, rfl⟩
    simp only [llama_sampler_stage_apply, apply_mirostat]
    have hsrt : sort_by_prob [c] = [c] := rfl
    rw [hsrt]
    exact take_singleton _ (le_max_right k 1) c
  | grammar allowed =>
    exfalso
    simp [stage_is_grammar] at hs
  | temp t => exact ⟨⟨c.id, c.logit / t, c.p⟩, rfl, rfl⟩
  | penalties n rep freq pres hist =>
    refine ⟨_, rfl, ?_⟩
    simp only [apply_penalties]
    split
    · rfl
    · rfl
  | logit_bias entries =>
    refine ⟨_, rfl, ?_⟩
    simp only [apply_logit_bias]
    cases entries.find? (fun e => e.1 = c.id) with
    | none => rfl
    | some e => rfl

/-- A whole grammar-free chain maps a one-candidate set to a
one-candidate set with the same token id. -/
lemma chain_apply_singleton (chain : List llama_sampler_stage)
    (hgf : ∀ s ∈ chain, stage_is_grammar s = false) :
    ∀ c : llama_token_data,
      ∃ c', llama_sampler_chain_apply chain [c] = [c'] ∧ c'.id = c.id := by
  induction chain with
  | nil => intro c; exact ⟨c, rfl, rfl⟩
  | cons s rest ih =>
    intro c
    obtain ⟨c1, h1, hid1⟩ :=
      stage_apply_singleton s (hgf s (List.mem_cons_self s rest)) c
    obtain ⟨c2, h2, hid2⟩ :=
      ih (fun x hx => hgf x (List.mem_cons_of_mem s hx)) c1
    refine ⟨c2, ?_, hid2.trans hid1⟩
    show List.foldl (fun d s => llama_sampler_stage_apply s d) [c] (s :: rest) = [c2]
    rw [List.foldl_cons]
    show llama_sampler_chain_apply rest (llama_sampler_stage_apply s [c]) = [c2]
    rw [h1]
    exact h2

/-- `insert_by_logit` grows the list by one. -/
lemma insert_by_logit_length (c : llama_token_data) (l : List llama_token_data) :
    (insert_by_logit c l).length = l.length + 1 := by
  induction l with
  | nil => rfl
  | cons b rest ih =>
    simp only [insert_by_logit]
    split
    · simp
    · simp [ih]

/-- Sorting by logit preserves the number of candidates. -/
lemma sort_by_logit_length (l : List llama_token_data) :
    (sort_by_logit l).length = l.length := by
  induction l with
  | nil => rfl
  | cons c rest ih => simp [sort_by_logit, insert_by_logit_length, ih]

/-- `top_k(1)` on a nonempty distribution leaves exactly one candidate. -/
lemma top_k_one_singleton (d : List llama_token_data) (hd : d ≠ []) :
    ∃ c0, llama_sampler_stage_apply (.top_k 1) d = [c0] := by
  simp only [llama_sampler_stage_apply, apply_top_k, if_neg (by omega : ¬(1 = 0))]
  have hlen : (sort_by_logit d).length = d.length := sort_by_logit_length d
  cases hs : sort_by_logit d with
  | nil =>
    exfalso
    rw [hs] at hlen
    exact hd (List.length_eq_zero.mp hlen.symm)
  | cons c0 rest => exact ⟨c0, by simp⟩

/-- C6 (amended): prefixing a chain with `top_k(1)` and following it with
any stages none of which is the grammar mask leaves exactly one
candidate after the whole chain, and the finally selected token does not
depend on the order of the stages placed after `top_k(1)`. -/
theorem C6_top_k_one_then_any (d : List llama_token_data)
    (stages stages2 : List llama_sampler_stage)
    (hd : d ≠ []) (hperm : stages.Perm stages2)
    (hgf : ∀ s ∈ stages, stage_is_grammar s = false) :
    (llama_sampler_chain_apply (.top_k 1 :: stages) d).length = 1
    ∧ llama_sampler_chain_select (.top_k 1 :: stages) d
        = llama_sampler_chain_select (.top_k 1 :: stages2) d := by
  have hgf2 : ∀ s ∈ stages2, stage_is_grammar s = false :=
    fun x hx => hgf x (hperm.mem_iff.mpr hx)
  obtain ⟨c0, hc0⟩ := top_k_one_singleton d hd
  obtain ⟨c1, h1, hid1⟩ := chain_apply_singleton stages hgf c0
  obtain ⟨c2, h2, hid2⟩ := chain_apply_singleton stages2 hgf2 c0
  have e1 : llama_sampler_chain_apply (.top_k 1 :: stages) d = [c1] := by
    show llama_sampler_chain_apply stages (llama_sampler_stage_apply (.top_k 1) d) = [c1]
    rw [hc0]
    exact h1
  have e2 : llama_sampler_chain_apply (.top_k 1 :: stages2) d = [c2] := by
    show llama_sampler_chain_apply stages2 (llama_sampler_stage_apply (.top_k 1) d) = [c2]
    rw [hc0]
    exact h2
  refine ⟨by rw [e1]; rfl, ?_⟩
  rw [llama_sampler_chain_select, llama_sampler_chain_select, e1, e2]
  have hg1 : llama_sampler_greedy [c1] = some c1 := rfl
  have hg2 : llama_sampler_greedy [c2] = some c2 := rfl
  rw [hg1, hg2]
  simp [hid1, hid2]

/-- Closed witness for C6 with a two-stage tail and its reversal. -/
theorem C6_top_k_one_then_any_witness :
    (llama_sampler_chain_apply
        [llama_sampler_stage.top_k 1, llama_sampler_stage.temp 2,
         llama_sampler_stage.top_k 5]
        [⟨0, 1, 0⟩, ⟨1, 2, 0⟩]).length = 1
    ∧ llama_sampler_chain_select
        [llama_sampler_stage.top_k 1, llama_sampler_stage.temp 2,
         llama_sampler_stage.top_k 5]
        [⟨0, 1, 0⟩, ⟨1, 2, 0⟩]
      = llama_sampler_chain_select
        [llama_sampler_stage.top_k 1, llama_sampler_stage.top_k 5,
         llama_sampler_stage.temp 2]
        [⟨0, 1, 0⟩, ⟨1, 2, 0⟩] :=
  C6_top_k_one_then_any [⟨0, 1, 0⟩, ⟨1, 2, 0⟩]
    [llama_sampler_stage.temp 2, llama_sampler_stage.top_k 5]
    [llama_sampler_stage.top_k 5, llama_sampler_stage.temp 2]
    (by decide) (List.Perm.swap _ _ _)
    (by
      intro x hx
      rcases List.mem_cons.mp hx with rfl | hx2
      · rfl
      · rcases List.mem_cons.mp hx2 with rfl | hx3
        · rfl
        · cases hx3)

/-- Counterexample to C6 as frozen: over the full spec 4.5 stage
universe, a grammar stage whose mask rejects every token, placed after
`top_k(1)`, masks out the sole remaining candidate, so the chain leaves
zero candidates rather than exactly one. -/
theorem C6_grammar_counterexample :
    ¬ ((llama_sampler_chain_apply
        [llama_sampler_stage.top_k 1,
         llama_sampler_stage.grammar (fun _ => false)]
        [⟨0, 1, 0⟩, ⟨1, 2, 0⟩]).length = 1) := by
  norm_num [llama_sampler_chain_apply, llama_sampler_stage_apply, apply_top_k,
    sort_by_logit, insert_by_logit, apply_grammar]

/-! ## The tie-break scenario -/

/-- The scenario distribution: vocabulary of size 5 with raw logits
1.0, 3.0, 0.5, 3.0, -1.0 on token ids 0 … 4. -/
def c7_logits : List llama_token_data :=
  [⟨0, 1, 0⟩, ⟨1, 3, 0⟩, ⟨2, 1/2, 0⟩, ⟨3, 3, 0⟩, ⟨4, -1, 0⟩]

/-- C7: on the scenario distribution, `top_k(2)` keeps exactly the two
tied highest-logit tokens 1 and 3 (in that order: the stable sort makes
the lowest index win ties), and greedy selection then deterministically
returns token 1, the lower of the two tied indices. -/
theorem C7_top_k2_greedy_tie_break :
    (llama_sampler_chain_apply [llama_sampler_stage.top_k 2] c7_logits).map
        (fun c => c.id) = [1, 3]
    ∧ llama_sampler_chain_select [llama_sampler_stage.top_k 2] c7_logits
        = some 1
    ∧ llama_sampler_chain_select [llama_sampler_stage.top_k 2] c7_logits
        = llama_sampler_chain_select [llama_sampler_stage.top_k 2] c7_logits := by
  refine ⟨?_, ?_, rfl⟩ <;>
    norm_num [llama_sampler_chain_select, llama_sampler_chain_apply,
      llama_sampler_stage_apply, apply_top_k, sort_by_logit, insert_by_logit,
      llama_sampler_greedy, greedy_step, c7_logits]

/-! ## Backend scheduler: status codes and the abort protocol -/

/-- The scheduler status codes (`enum ggml_status` of
`src/core/inference/ggml/ggml.h`, lines 375-380). -/
inductive ggml_status
  | alloc_failed
  | failed
  | success
  | aborted
deriving DecidableEq

/-- One graph node, reduced to its externally visible effect on the
session: the cache cell its execution would commit. -/
structure ggml_graph_node where
  out : llama_kv_cell
deriving DecidableEq

/-- Modelled from the spec: the scheduler's execution loop.  The abort
flag (`abort_callback` of `llama_context_params`) is polled between node
executions; node effects accumulate in a pending buffer that is
committed to the session's KV cache only when the whole graph ran, so an
abort surfaces `aborted` with the cache exactly as before the call. -/
def sched_compute_go (abort_cb : Nat → Bool) (cache : llama_kv_cache)
    (pending : llama_kv_cache) (i : Nat) :
    List ggml_graph_node → ggml_status × llama_kv_cache
  | [] => (.success, cache ++ pending)
  | n :: rest =>
    if abort_cb i then (.aborted, cache)
    else sched_compute_go abort_cb cache (pending ++ [n.out]) (i + 1) rest

/-- Modelled from the spec: `ggml_backend_sched_graph_compute` executes
the graph against the session cache under the abort callback. -/
def ggml_backend_sched_graph_compute (nodes : List ggml_graph_node)
    (abort_cb : Nat → Bool) (cache : llama_kv_cache) :
    ggml_status × llama_kv_cache :=
  sched_compute_go abort_cb cache [] 0 nodes

/-- If the abort flag raises at a node index the loop still reaches, the
loop resolves to `aborted` with the cache untouched. -/
lemma sched_compute_go_abort (k : Nat) :
    ∀ (nodes : List ggml_graph_node) (cache pending : llama_kv_cache) (i : Nat),
      i ≤ k → k < i + nodes.length →
      sched_compute_go (fun j => decide (k ≤ j)) cache pending i nodes
        = (.aborted, cache) := by
  intro nodes
  induction nodes with
  | nil =>
    intro cache pending i hik hk
    simp only [List.length_nil] at hk
    omega
  | cons n rest ih =>
    intro cache pending i hik hk
    by_cases hi : k ≤ i
    · simp [sched_compute_go, hi]
    · have : ¬(decide (k ≤ i) = true) := by simp [hi]
      simp only [sched_compute_go, this, if_false, Bool.false_eq_true]
      apply ih
      · omega
      · simp only [List.length_cons] at hk
        omega

/-- C2: a graph execution of `n > 1` nodes whose abort callback raises
after node `k` (`k < n`) resolves to the `aborted` status and leaves the
session's KV cache identical to its state before the call: no pending
cache write of the incomplete step is committed. -/
theorem C2_abort_leaves_cache_unchanged (nodes : List ggml_graph_node)
    (cache : llama_kv_cache) (k : Nat)
    (_hn : 1 < nodes.length) (hk : k < nodes.length) :
    ggml_backend_sched_graph_compute nodes (fun j => decide (k ≤ j)) cache
      = (ggml_status.aborted, cache) := by
  apply sched_compute_go_abort k nodes cache [] 0 (by omega) (by omega)

/-- Closed witness for C2: a two-node graph aborted after its first
node. -/
theorem C2_abort_leaves_cache_unchanged_witness :
    ggml_backend_sched_graph_compute [⟨⟨0, 0, 1⟩⟩, ⟨⟨0, 1, 2⟩⟩]
        (fun j => decide (1 ≤ j)) [⟨5, 0, 9⟩]
      = (ggml_status.aborted, [⟨5, 0, 9⟩]) :=
  C2_abort_leaves_cache_unchanged [⟨⟨0, 0, 1⟩⟩, ⟨⟨0, 1, 2⟩⟩] [⟨5, 0, 9⟩] 1
    (by decide) (by decide)

/-! ## Session-state serialization -/

/-- Modelled from the spec: the per-session mutable state the state blob
captures — the full KV cache plus sampler state (accepted-token history
and the sampler seed). -/
structure llama_session_state where
  kv : llama_kv_cache
  history : List Int
  seed : Int
deriving DecidableEq

/-- Flat encoding of one cache cell into the state blob. -/
def encode_cell (c : llama_kv_cell) : List Int :=
  [c.seq, c.pos, c.val]

/-- Modelled from the spec: `llama_copy_state_data` serializes the full
session state into an opaque buffer, written as a single unit (here a
length-tagged stream of integers). -/
def llama_copy_state_data (st : llama_session_state) : List Int :=
  (st.kv.length : Int) :: (st.kv.map encode_cell).flatten
    ++ (st.history.length : Int) :: st.history ++ [st.seed]

/-- Reads `n` cells back off the blob. -/
def decode_cells : Nat → List Int → Option (llama_kv_cache × List Int)
  | 0, rest => some ([], rest)
  | n + 1, s :: p :: v :: rest =>
    (decode_cells n rest).map (fun r => (⟨s, p, v⟩ :: r.1, r.2))
  | _ + 1, _ => none

/-- Reads `n` plain integers back off the blob. -/
def decode_ints : Nat → List Int → Option (List Int × List Int)
  | 0, rest => some ([], rest)
  | n + 1, x :: rest => (decode_ints n rest).map (fun r => (x :: r.1, r.2))
  | _ + 1, [] => none

/-- Modelled from the spec: `llama_set_state_data` restores a serialized
session state from the opaque buffer, failing on a malformed blob. -/
def llama_set_state_data (data : List Int) : Option llama_session_state :=
  match data with
  | nk :: rest =>
    match decode_cells nk.toNat rest with
    | some (kv, rest2) =>
      match rest2 with
      | nh :: rest3 =>
        match decode_ints nh.toNat rest3 with
        | some (hist, rest4) =>
          match rest4 with
          | [seed] => some ⟨kv, hist, seed⟩
          | _ => none
        | none => none
      | [] => none
    | none => none
  | [] => none

/-- Modelled from the spec: one decode step is a deterministic function
of the immutable model, the session state and the submitted input; the
forward pass itself is opaque, represented here by an explicit
deterministic computation of one output logit per vocabulary entry. -/
def llama_decode_logits (m : llama_model) (st : llama_session_state)
    (input : List Int) : List Int :=
  (List.range m.n_vocab.toNat).map (fun j =>
    st.kv.foldl (fun a c => a + c.val * (c.pos + 1)) 0 * ((j : Int) + 1)
      + input.foldl (fun a tk => a * 31 + tk) st.seed
      + st.history.foldl (fun a tk => a * 17 + tk) 0)

/-- Reading the cells of a serialized cache back returns them and the
untouched tail of the blob. -/
lemma decode_cells_roundtrip (kv : llama_kv_cache) :
    ∀ rest : List Int,
      decode_cells kv.length ((kv.map encode_cell).flatten ++ rest)
        = some (kv, rest) := by
  induction kv with
  | nil => intro rest; rfl
  | cons c tail ih =>
    intro rest
    simp only [List.length_cons, List.map_cons, List.flatten_cons, encode_cell,
      List.cons_append, List.append_assoc]
    show (decode_cells tail.length ((tail.map encode_cell).flatten ++ rest)).map _
      = _
    rw [ih rest]
    rfl

/-- Reading serialized plain integers back returns them and the
untouched tail of the blob. -/
lemma decode_ints_roundtrip (xs : List Int) :
    ∀ rest : List Int, decode_ints xs.length (xs ++ rest) = some (xs, rest) := by
  induction xs with
  | nil => intro rest; rfl
  | cons x tail ih =>
    intro rest
    simp only [List.length_cons, List.cons_append]
    show (decode_ints tail.length (tail ++ rest)).map _ = _
    rw [ih rest]
    rfl

/-- C3: the state blob round-trips — restoring a serialized session state
into a fresh session yields the identical state — and decoding identical
subsequent input on the restored session produces logits that match the
un-interrupted run exactly. -/
theorem C3_state_roundtrip_same_logits (m : llama_model)
    (st : llama_session_state) (input : List Int) :
    llama_set_state_data (llama_copy_state_data st) = some st
    ∧ ∀ st' : llama_session_state,
        llama_set_state_data (llama_copy_state_data st) = some st' →
        llama_decode_logits m st' input = llama_decode_logits m st input := by
  have hrt : llama_set_state_data (llama_copy_state_data st) = some st := by
    rw [llama_copy_state_data, llama_set_state_data.eq_def]
    simp only [List.cons_append, List.append_assoc, Int.toNat_natCast]
    rw [decode_cells_roundtrip st.kv ((st.history.length : Int) :: (st.history ++ [st.seed]))]
    simp only [Int.toNat_natCast]
    rw [decode_ints_roundtrip st.history [st.seed]]
  refine ⟨hrt, fun st' hst' => ?_⟩
  rw [hrt] at hst'
  cases hst'
  rfl

/-- Closed witness for C3 at a concrete model, state and input. -/
theorem C3_state_roundtrip_same_logits_witness :
    llama_set_state_data (llama_copy_state_data ⟨[⟨0, 0, 3⟩], [7], 42⟩)
      = some ⟨[⟨0, 0, 3⟩], [7], 42⟩
    ∧ llama_decode_logits ⟨8, 2, 2, 4⟩ ⟨[⟨0, 0, 3⟩], [7], 42⟩ [9, 9]
      = llama_decode_logits ⟨8, 2, 2, 4⟩ ⟨[⟨0, 0, 3⟩], [7], 42⟩ [9, 9] :=
  ⟨(C3_state_roundtrip_same_logits ⟨8, 2, 2, 4⟩ ⟨[⟨0, 0, 3⟩], [7], 42⟩ [9, 9]).1,
   (C3_state_roundtrip_same_logits ⟨8, 2, 2, 4⟩ ⟨[⟨0, 0, 3⟩], [7], 42⟩ [9, 9]).2
     ⟨[⟨0, 0, 3⟩], [7], 42⟩
     (C3_state_roundtrip_same_logits ⟨8, 2, 2, 4⟩ ⟨[⟨0, 0, 3⟩], [7], 42⟩ [9, 9]).1⟩
